import Mathlib

/-!
Verification development for the CPU group-normalization kernel
(`aten/src/ATen/native/cpu/group_norm_kernel.cpp`).

The kernel is embedded shallowly over an arbitrary linearly ordered field `K`
(instantiated at `ℚ` for executable witnesses and at `ℝ` where the reciprocal
square root is needed numerically).  Machine floating point arithmetic is
replaced by exact field arithmetic; the single transcendental operation
`x ↦ 1 / std::sqrt x` is kept abstract as a parameter `invSqrt : K → K`
(instantiated with `fun x => (Real.sqrt x)⁻¹` over `ℝ`).

SIMD accumulation (`vec::Vectorized` lane accumulators followed by one
horizontal reduce, plus a scalar remainder loop) reassociates, over exact
arithmetic, to the plain mathematical sum of the same terms; the embeddings
of the reduction routines therefore use `Finset.sum` directly.
`at::parallel_for` partitions a range of independent work items, each of which
writes a disjoint set of output locations, so the parallel loops are embedded
as pure functions of the output index; the one place where the thread
decomposition is observable (the per-thread scratch buffer of the
large-spatial channels-last path) is modelled by an explicit, arbitrary
assignment `tid : ℕ → ℕ` of positions to workers.
-/

namespace GroupNorm

section Core

variable {K : Type} [LinearOrderedField K]

/-- Identity substitution for an absent `gamma`: the kernel uses
`gamma_null ? T_ACC(1) : T_ACC(gamma_data[c])` everywhere. -/
def gammaVal (gamma : Option (ℕ → K)) (c : ℕ) : K :=
  match gamma with
  | none => 1
  | some f => f c

/-- Identity substitution for an absent `beta`: the kernel uses
`beta_null ? T_ACC(0) : T_ACC(beta_data[c])` everywhere. -/
def betaVal (beta : Option (ℕ → K)) (c : ℕ) : K :=
  match beta with
  | none => 0
  | some f => f c

/-- Modelled from the spec: `RowwiseMoments` (the numerically-stabilized
two-pass moment utility from `moments_utils.h`, which is not part of this
file) returns the mean and the biased variance of the `len` contiguous
elements starting at offset `off`; over exact arithmetic the stabilized
computation is exactly mean and mean of squared deviations. -/
def rowwiseMoments (X : ℕ → K) (off len : ℕ) : K × K :=
  let mean := (∑ j ∈ Finset.range len, X (off + j)) / (len : K)
  (mean, (∑ j ∈ Finset.range len, (X (off + j) - mean) ^ 2) / (len : K))

/-- Mean written by `GroupNormKernelImplInternal` for unit `i` (lines 59-87):
`RowwiseMoments` over the unit's contiguous span of `D*HxW` elements. -/
def packedMean (N C HxW G : ℕ) (X : ℕ → K) (i : ℕ) : K :=
  (rowwiseMoments X (i * (C / G * HxW)) (C / G * HxW)).1

/-- Biased variance computed by `GroupNormKernelImplInternal` for unit `i`
(the second component of `RowwiseMoments`, before the clamp). -/
def packedVar (N C HxW G : ℕ) (X : ℕ → K) (i : ℕ) : K :=
  (rowwiseMoments X (i * (C / G * HxW)) (C / G * HxW)).2

/-- Reciprocal standard deviation written by `GroupNormKernelImplInternal`:
`rstd_val = T_ACC(1) / std::sqrt(std::max(rstd_val, T_ACC(0)) + eps)`
(line 65). -/
def packedRstd (invSqrt : K → K) (N C HxW G : ℕ) (eps : K) (X : ℕ → K)
    (i : ℕ) : K :=
  invSqrt (max (packedVar N C HxW G X i) 0 + eps)

/-- Output of the packed-layout forward `GroupNormKernelImplInternal`
(lines 59-87) at flat index `idx` (valid for `idx < N*C*HxW`).  The branch on
`gamma_null && beta_null` writes `(x - mean) * rstd` directly; otherwise the
per-channel scale `rstd*gamma[c]` and bias `-scale*mean + beta[c]` are applied
over the channel's contiguous `HxW` run. -/
def packedY (invSqrt : K → K) (N C HxW G : ℕ) (eps : K) (X : ℕ → K)
    (gamma beta : Option (ℕ → K)) : ℕ → K :=
  fun idx =>
    let D := C / G
    let inner := D * HxW
    let i := idx / inner
    let meanVal := packedMean N C HxW G X i
    let rstdVal := packedRstd invSqrt N C HxW G eps X i
    match gamma, beta with
    | none, none => (X idx - meanVal) * rstdVal
    | _, _ =>
      let j := idx % inner / HxW
      let c := i % G * D + j
      let scale := rstdVal * gammaVal gamma c
      let bias := -scale * meanVal + betaVal beta c
      scale * X idx + bias

/-- Embeds `ColumnwiseMoments` (lines 91-117): the sum and the sum of squares
of the `D`-wide channel run of a group across all `HxW` spatial positions,
with spatial stride `C`.  The SIMD lane accumulators and the single final
horizontal reduce reassociate, over exact arithmetic, to this double sum. -/
def columnwiseMoments (X : ℕ → K) (off HxW C D : ℕ) : K × K :=
  (∑ m ∈ Finset.range HxW, ∑ d ∈ Finset.range D, X (off + m * C + d),
   ∑ m ∈ Finset.range HxW, ∑ d ∈ Finset.range D, X (off + m * C + d) ^ 2)

/-- Mean computed by the small-spatial (impl-1) channels-last path for
unit `i` (lines 333-355): `mean_val = sum * s` with `s = 1/(D*HxW)`. -/
def clSmallMean (N C HxW G : ℕ) (X : ℕ → K) (i : ℕ) : K :=
  let n := i / G
  let g := i % G
  let D := C / G
  (columnwiseMoments X (n * (HxW * C) + g * D) HxW C D).1 *
    ((D * HxW : ℕ) : K)⁻¹

/-- Clamped variance of the small-spatial channels-last path (line 352):
`std::max(rstd_val * s - mean_val * mean_val, T_ACC(0))`. -/
def clSmallVar (N C HxW G : ℕ) (X : ℕ → K) (i : ℕ) : K :=
  let n := i / G
  let g := i % G
  let D := C / G
  max ((columnwiseMoments X (n * (HxW * C) + g * D) HxW C D).2 *
        ((D * HxW : ℕ) : K)⁻¹ - clSmallMean N C HxW G X i ^ 2) 0

/-- Reciprocal standard deviation of the small-spatial channels-last path
(line 353). -/
def clSmallRstd (invSqrt : K → K) (N C HxW G : ℕ) (eps : K) (X : ℕ → K)
    (i : ℕ) : K :=
  invSqrt (clSmallVar N C HxW G X i + eps)

/-- Per-channel scale and bias shared by both channels-last paths
(lines 360-364 and 453-457): `scale = rstd * gamma[c]`,
`bias = -scale * mean + beta[c]`, with the unit taken from the channel's
group `g = c / D`. -/
def clScaleBias (G D : ℕ) (meanF rstdF : ℕ → K)
    (gamma beta : Option (ℕ → K)) (n c : ℕ) : K × K :=
  let g := c / D
  let scale := rstdF (n * G + g) * gammaVal gamma c
  (scale, -scale * meanF (n * G + g) + betaVal beta c)

/-- Output of the small-spatial channels-last path at flat index `idx`
(valid for `idx < N*HxW*C`): `ApplyScaleBias` over each spatial position's
`D`-wide channel run (lines 366-371). -/
def clSmallY (invSqrt : K → K) (N C HxW G : ℕ) (eps : K) (X : ℕ → K)
    (gamma beta : Option (ℕ → K)) : ℕ → K :=
  fun idx =>
    let n := idx / (HxW * C)
    let c := idx % C
    let sb := clScaleBias G (C / G) (clSmallMean N C HxW G X)
      (clSmallRstd invSqrt N C HxW G eps X) gamma beta n c
    sb.1 * X idx + sb.2

/-- Per-thread partial sum of the large-spatial (impl-2) channels-last path
(step-1, lines 400-413): thread `t` accumulates `x` for channel `c` of batch
`n` over exactly the spatial positions the scheduler assigned it, modelled by
the arbitrary assignment `tid`. -/
def clThreadBuf (X : ℕ → K) (C HxW : ℕ) (tid : ℕ → ℕ) (t n c : ℕ) : K :=
  ∑ m ∈ (Finset.range HxW).filter (fun m => tid (n * HxW + m) = t),
    X ((n * HxW + m) * C + c)

/-- Per-thread partial sum of squares of the large-spatial channels-last
path (step-1). -/
def clThreadBufSq (X : ℕ → K) (C HxW : ℕ) (tid : ℕ → ℕ) (t n c : ℕ) : K :=
  ∑ m ∈ (Finset.range HxW).filter (fun m => tid (n * HxW + m) = t),
    X ((n * HxW + m) * C + c) ^ 2

/-- Mean produced by step-2 of the large-spatial channels-last path
(lines 416-432): the serial combine loops over the group's `D` channels and
over all `T` threads, then multiplies by `s`. -/
def clLargeMean (N C HxW G T : ℕ) (tid : ℕ → ℕ) (X : ℕ → K) (i : ℕ) : K :=
  let n := i / G
  let g := i % G
  let D := C / G
  (∑ d ∈ Finset.range D, ∑ t ∈ Finset.range T,
      clThreadBuf X C HxW tid t n (g * D + d)) * ((D * HxW : ℕ) : K)⁻¹

/-- Clamped variance of the large-spatial channels-last path (line 427). -/
def clLargeVar (N C HxW G T : ℕ) (tid : ℕ → ℕ) (X : ℕ → K) (i : ℕ) : K :=
  let n := i / G
  let g := i % G
  let D := C / G
  max ((∑ d ∈ Finset.range D, ∑ t ∈ Finset.range T,
          clThreadBufSq X C HxW tid t n (g * D + d)) *
        ((D * HxW : ℕ) : K)⁻¹ - clLargeMean N C HxW G T tid X i ^ 2) 0

/-- Reciprocal standard deviation of the large-spatial channels-last path
(line 428). -/
def clLargeRstd (invSqrt : K → K) (N C HxW G T : ℕ) (tid : ℕ → ℕ) (eps : K)
    (X : ℕ → K) (i : ℕ) : K :=
  invSqrt (clLargeVar N C HxW G T tid X i + eps)

/-- Output of the large-spatial channels-last path at flat index `idx`
(step-4, lines 466-477): the position index is `i = idx / C` and the batch is
recovered as `n = i / HxW`, exactly as `data_index_init` does. -/
def clLargeY (invSqrt : K → K) (N C HxW G T : ℕ) (tid : ℕ → ℕ) (eps : K)
    (X : ℕ → K) (gamma beta : Option (ℕ → K)) : ℕ → K :=
  fun idx =>
    let n := idx / C / HxW
    let c := idx % C
    let sb := clScaleBias G (C / G) (clLargeMean N C HxW G T tid X)
      (clLargeRstd invSqrt N C HxW G T tid eps X) gamma beta n c
    sb.1 * X idx + sb.2

/-- Fixed algorithm-selection threshold of
`GroupNormKernelImplChannelsLastInternal` (line 325). -/
def featureMapThreshold : ℕ := 1024

/-- Mean emitted by `GroupNormKernelImplChannelsLastInternal`: the
small-spatial path when `HxW < 1024`, the large-spatial path otherwise
(line 326). -/
def clMean (N C HxW G T : ℕ) (tid : ℕ → ℕ) (X : ℕ → K) (i : ℕ) : K :=
  if HxW < featureMapThreshold then clSmallMean N C HxW G X i
  else clLargeMean N C HxW G T tid X i

/-- Reciprocal standard deviation emitted by
`GroupNormKernelImplChannelsLastInternal`. -/
def clRstd (invSqrt : K → K) (N C HxW G T : ℕ) (tid : ℕ → ℕ) (eps : K)
    (X : ℕ → K) (i : ℕ) : K :=
  if HxW < featureMapThreshold then clSmallRstd invSqrt N C HxW G eps X i
  else clLargeRstd invSqrt N C HxW G T tid eps X i

/-- Output emitted by `GroupNormKernelImplChannelsLastInternal`. -/
def clY (invSqrt : K → K) (N C HxW G T : ℕ) (tid : ℕ → ℕ) (eps : K)
    (X : ℕ → K) (gamma beta : Option (ℕ → K)) : ℕ → K :=
  if HxW < featureMapThreshold then clSmallY invSqrt N C HxW G eps X gamma beta
  else clLargeY invSqrt N C HxW G T tid eps X gamma beta

/-- Embeds `ComputeInternalGradients` (lines 527-566): the per-(batch,channel)
reduction `ds[i] = Σ_j dY[i*HxW+j] * X[i*HxW+j]`; the vectorized main loop
plus the scalar remainder loop reassociate, over exact arithmetic, to the
plain sum. -/
def dsFun (dY X : ℕ → K) (HxW : ℕ) (i : ℕ) : K :=
  ∑ j ∈ Finset.range HxW, dY (i * HxW + j) * X (i * HxW + j)

/-- Embeds `ComputeInternalGradients`: `db[i] = Σ_j dY[i*HxW+j]`. -/
def dbFun (dY : ℕ → K) (HxW : ℕ) (i : ℕ) : K :=
  ∑ j ∈ Finset.range HxW, dY (i * HxW + j)

/-- Gamma-weighted group reduction of `ds` performed per unit by
`GroupNormInputBackward` via `CalcDsDb` plus the scalar remainder loop
(lines 663-675). -/
def inputBwdDsVal (C G : ℕ) (gamma : Option (ℕ → K)) (ds : ℕ → K)
    (i : ℕ) : K :=
  let D := C / G
  let g := i % G
  ∑ j ∈ Finset.range D, ds (i * D + j) * gammaVal gamma (g * D + j)

/-- Gamma-weighted group reduction of `db` performed per unit by
`GroupNormInputBackward`. -/
def inputBwdDbVal (C G : ℕ) (gamma : Option (ℕ → K)) (db : ℕ → K)
    (i : ℕ) : K :=
  let D := C / G
  let g := i % G
  ∑ j ∈ Finset.range D, db (i * D + j) * gammaVal gamma (g * D + j)

/-- Per-unit constant `c2` of `GroupNormInputBackward` (lines 676-677). -/
def inputBwdC2 (C HxW G : ℕ) (mean rstd : ℕ → K) (gamma : Option (ℕ → K))
    (ds db : ℕ → K) (i : ℕ) : K :=
  let s : K := 1 / ((C / G * HxW : ℕ) : K)
  (inputBwdDbVal C G gamma db i * mean i - inputBwdDsVal C G gamma ds i) *
    rstd i * rstd i * rstd i * s

/-- Per-unit constant `c3` of `GroupNormInputBackward` (line 678). -/
def inputBwdC3 (C HxW G : ℕ) (mean rstd : ℕ → K) (gamma : Option (ℕ → K))
    (ds db : ℕ → K) (i : ℕ) : K :=
  -inputBwdC2 C HxW G mean rstd gamma ds db i * mean i -
    inputBwdDbVal C G gamma db i * rstd i * (1 / ((C / G * HxW : ℕ) : K))

/-- Embeds `GroupNormInputBackward` (lines 638-692) at flat index `idx`
(valid for `idx < N*C*HxW`):
`dX[k] = c1 * dY[k] + c2 * X[k] + c3` with `c1 = rstd * gamma[c]`. -/
def groupNormInputBackward (N C HxW G : ℕ) (dY X mean rstd : ℕ → K)
    (gamma : Option (ℕ → K)) (ds db : ℕ → K) : ℕ → K :=
  fun idx =>
    let D := C / G
    let inner := D * HxW
    let i := idx / inner
    let j := idx % inner / HxW
    let c := i % G * D + j
    let c1 := rstd i * gammaVal gamma c
    c1 * dY idx + inputBwdC2 C HxW G mean rstd gamma ds db i * X idx +
      inputBwdC3 C HxW G mean rstd gamma ds db i

/-- Embeds `GammaBackward` (lines 694-722) at channel `c` (valid for
`c < C`): the owned output slot is zero-initialized and then accumulates
`(ds[n,c] - db[n,c]*mean[n,g]) * rstd[n,g]` over all batches. -/
def gammaBackward (N C G : ℕ) (mean rstd ds db : ℕ → K) : ℕ → K :=
  fun c =>
    let D := C / G
    let g := c / D
    let j := c % D
    ∑ n ∈ Finset.range N,
      (ds ((n * G + g) * D + j) - db ((n * G + g) * D + j) * mean (n * G + g)) *
        rstd (n * G + g)

/-- Embeds `BetaBackward` (lines 724-736) at channel `c` (valid for `c < C`):
the owned output slot is zero-initialized and then accumulates `db[n,c]`
over all batches. -/
def betaBackward (N C : ℕ) (db : ℕ → K) : ℕ → K :=
  fun c => ∑ n ∈ Finset.range N, db (n * C + c)

/-- Closed-form input gradient exactly as the specification states it
(`dX[n,c,k] = c1*dY + c2*X + c3` with `ds`, `db`, the gamma-weighted group
sums `ds_g`, `db_g`, `s = 1/(D*HxW)`, `c1 = rstd*gamma[c]`,
`c2 = (db_g*mean - ds_g)*rstd^3*s`, `c3 = -c2*mean - db_g*rstd*s`), written
from the spec sentence for comparison with the embedded kernel. -/
def specDX (N C HxW G : ℕ) (dY X mean rstd : ℕ → K)
    (gamma : Option (ℕ → K)) (n c k : ℕ) : K :=
  let D := C / G
  let g := c / D
  let ds : ℕ → K := fun q =>
    ∑ h ∈ Finset.range HxW, dY ((n * C + q) * HxW + h) * X ((n * C + q) * HxW + h)
  let db : ℕ → K := fun q =>
    ∑ h ∈ Finset.range HxW, dY ((n * C + q) * HxW + h)
  let dsG := ∑ j ∈ Finset.range D, ds (g * D + j) * gammaVal gamma (g * D + j)
  let dbG := ∑ j ∈ Finset.range D, db (g * D + j) * gammaVal gamma (g * D + j)
  let s : K := 1 / ((D * HxW : ℕ) : K)
  let c1 := rstd (n * G + g) * gammaVal gamma c
  let c2 := (dbG * mean (n * G + g) - dsG) * rstd (n * G + g) ^ 3 * s
  let c3 := -c2 * mean (n * G + g) - dbG * rstd (n * G + g) * s
  c1 * dY ((n * C + c) * HxW + k) + c2 * X ((n * C + c) * HxW + k) + c3

/-- Buffer read: caller-owned buffers of known element count are embedded as
lists, read with a default that is never reached on in-contract indices. -/
def bget (l : List K) (i : ℕ) : K := l.getD i 0

/-- Shape checks of the forward kernels.  The first three conjuncts embed
the `TORCH_CHECK`s at lines 42-44 (and identically 292-294).
Modelled from the spec: the divisibility check `C % G == 0` is performed by
the calling operator layer, which is not part of this file; the spec makes
it a precondition whose violation is a contract failure. -/
def forwardChecksOK (N C HxW G : ℕ) (X : List K)
    (gamma beta : Option (List K)) : Bool :=
  (X.length == N * C * HxW) &&
    (match gamma with
     | none => true
     | some l => l.length == C) &&
    (match beta with
     | none => true
     | some l => l.length == C) &&
    (C % G == 0)

/-- Layout tag dispatched on by `GroupNormKernelImpl` (line 494). -/
inductive Layout where
  | packed
  | channelsLast
deriving DecidableEq

/-- Embeds the forward entry point (`GroupNormKernelImpl` dispatching to
`GroupNormKernelImplInternal` or `GroupNormKernelImplChannelsLastInternal`)
as a state transformer on the three caller-owned output buffers.  The first
component is `false` exactly when a `TORCH_CHECK` fires, in which case the
exception propagates before any store and the returned buffers are the
caller's buffers unchanged.  On success each output buffer is overwritten
exactly on the index window the kernel writes (`N*C*HxW` for `Y`, `N*G` for
`mean` and `rstd`) and untouched elsewhere. -/
def groupNormForwardEntry (invSqrt : K → K) (layout : Layout)
    (N C HxW G : ℕ) (eps : K) (X : List K) (gamma beta : Option (List K))
    (T : ℕ) (tid : ℕ → ℕ) (Y0 mean0 rstd0 : ℕ → K) :
    Bool × (ℕ → K) × (ℕ → K) × (ℕ → K) :=
  if forwardChecksOK N C HxW G X gamma beta then
    let Xf := bget X
    let gf := gamma.map (fun l => bget l)
    let bf := beta.map (fun l => bget l)
    let Ynew : ℕ → K :=
      match layout with
      | .packed => packedY invSqrt N C HxW G eps Xf gf bf
      | .channelsLast => clY invSqrt N C HxW G T tid eps Xf gf bf
    let meanNew : ℕ → K :=
      match layout with
      | .packed => packedMean N C HxW G Xf
      | .channelsLast => clMean N C HxW G T tid Xf
    let rstdNew : ℕ → K :=
      match layout with
      | .packed => packedRstd invSqrt N C HxW G eps Xf
      | .channelsLast => clRstd invSqrt N C HxW G T tid eps Xf
    (true,
     fun i => if i < N * C * HxW then Ynew i else Y0 i,
     fun i => if i < N * G then meanNew i else mean0 i,
     fun i => if i < N * G then rstdNew i else rstd0 i)
  else (false, Y0, mean0, rstd0)

/-- Shape checks of the backward kernel.  The first five conjuncts embed the
`TORCH_CHECK`s at lines 752-756.
Modelled from the spec: the divisibility check `C % G == 0` is performed by
the calling operator layer, which is not part of this file. -/
def backwardChecksOK (N C HxW G : ℕ) (dY X mean rstd : List K)
    (gamma : Option (List K)) : Bool :=
  (dY.length == N * C * HxW) && (X.length == N * C * HxW) &&
    (mean.length == N * G) && (rstd.length == N * G) &&
    (match gamma with
     | none => true
     | some l => l.length == C) &&
    (C % G == 0)

/-- Embeds `GroupNormBackwardKernelImplInternal` (lines 738-793) as a state
transformer on the three caller-owned gradient buffers.  Each of `dX`,
`dgamma`, `dbeta` is an optional output: a gradient is computed and stored
(on exactly the index window the kernel writes) iff the corresponding flag
is set, and the buffer is returned unchanged otherwise; on a failed
`TORCH_CHECK` the flag component is `false` and all three buffers are
returned unchanged. -/
def groupNormBackwardEntry (N C HxW G : ℕ) (dY X mean rstd : List K)
    (gamma : Option (List K)) (wantDX wantDGamma wantDBeta : Bool)
    (dX0 dgamma0 dbeta0 : ℕ → K) :
    Bool × (ℕ → K) × (ℕ → K) × (ℕ → K) :=
  if backwardChecksOK N C HxW G dY X mean rstd gamma then
    let dYf := bget dY
    let Xf := bget X
    let meanf := bget mean
    let rstdf := bget rstd
    let gf := gamma.map (fun l => bget l)
    let ds := dsFun dYf Xf HxW
    let db := dbFun dYf HxW
    (true,
     if wantDX then
       fun idx => if idx < N * C * HxW then
         groupNormInputBackward N C HxW G dYf Xf meanf rstdf gf ds db idx
       else dX0 idx
     else dX0,
     if wantDGamma then
       fun c => if c < C then gammaBackward N C G meanf rstdf ds db c
       else dgamma0 c
     else dgamma0,
     if wantDBeta then
       fun c => if c < C then betaBackward N C db c else dbeta0 c
     else dbeta0)
  else (false, dX0, dgamma0, dbeta0)

end Core

section Precision

/-- Modelled from the spec: the storage element types the forward dispatch
instantiates (`AT_DISPATCH_FLOATING_TYPES_AND(ScalarType::BFloat16, ...)`,
line 496): double- and single-width floats and the reduced-precision
BFloat16. -/
inductive Storage where
  | double
  | float
  | bfloat16
deriving DecidableEq

/-- Binary exponent `e` with `2^e ≤ |q| < 2^(e+1)` for `q ≠ 0`. -/
def binExp (q : ℚ) : ℤ := Int.log 2 |q|

/-- Rounds `q` to the nearest integer multiple of `2^e`, ties to even. -/
def roundAt (q : ℚ) (e : ℤ) : ℚ :=
  let x := q * (2 : ℚ) ^ (-e)
  let n := ⌊x⌋
  let f := x - (n : ℚ)
  let m : ℤ :=
    if f < 1 / 2 then n
    else if 1 / 2 < f then n + 1
    else if n % 2 = 0 then n else n + 1
  (m : ℚ) * (2 : ℚ) ^ e

/-- Modelled from the spec: round-to-nearest-even at `p` significant binary
digits, the conversion a floating-point format with a `p`-bit significand
performs on a value in its normal range (overflow and subnormals are outside
the magnitudes concerned here). -/
def roundFP (p : ℕ) (q : ℚ) : ℚ :=
  if q = 0 then 0 else roundAt q (binExp q - ((p : ℤ) - 1))

/-- Significand width of each storage type: 53 for double, 24 for float,
8 for BFloat16. -/
def storageBits : Storage → ℕ
  | .double => 53
  | .float => 24
  | .bfloat16 => 8

/-- Modelled from the spec: significand width of the accumulation type
`at::opmath_type` of each storage type — double accumulates in double,
float in float, and BFloat16 in float. -/
def accBits : Storage → ℕ
  | .double => 53
  | .float => 24
  | .bfloat16 => 24

/-- Embeds the epsilon dataflow of the forward dispatch
(`GroupNormKernelImpl`, lines 496-519): the caller-supplied double `eps` is
passed as `static_cast<scalar_t>(eps)` — a rounding to the *storage* type —
and the kernels then widen it exactly to the accumulation type for the
addition `max(var, 0) + eps`.  For double storage the cast is the identity
on the caller's value. -/
def epsUsed (st : Storage) (eps : ℚ) : ℚ :=
  match st with
  | .double => eps
  | .float => roundFP 24 eps
  | .bfloat16 => roundFP 8 eps

/-- The caller-supplied double `eps` represented in the accumulation
precision of storage type `st` (the value the spec asserts is used). -/
def epsAccum (st : Storage) (eps : ℚ) : ℚ :=
  match st with
  | .double => eps
  | .float => roundFP 24 eps
  | .bfloat16 => roundFP 24 eps

/-- Argument of the reciprocal square root in the forward kernels with the
epsilon dataflow of the dispatch made explicit:
`std::max(var, 0) + eps` with `eps` the storage-cast value. -/
def rstdArgOfVar (st : Storage) (eps var : ℚ) : ℚ :=
  max var 0 + epsUsed st eps

end Precision

/-- Reciprocal square root over the reals: the exact-arithmetic reading of
`T_ACC(1) / std::sqrt(x)`. -/
noncomputable def invSqrtR : ℝ → ℝ := fun x => (Real.sqrt x)⁻¹

/-- Concrete packed input of the spec scenario `N = 1, C = 4, HxW = 1,
G = 2`: `X = [1, 2, 3, 4]`. -/
def XC3 : ℕ → ℝ
  | 0 => 1
  | 1 => 2
  | 2 => 3
  | 3 => 4
  | _ => 0

section Helpers

variable {K : Type} [LinearOrderedField K]

lemma sum_range_mul {M : Type} [AddCommMonoid M] (f : ℕ → M) (a b : ℕ) :
    ∑ j ∈ Finset.range (a * b), f j =
      ∑ p ∈ Finset.range a, ∑ q ∈ Finset.range b, f (p * b + q) := by
  induction a with
  | zero => simp
  | succ n ih =>
    rw [Nat.succ_mul, Finset.sum_range_add, ih, Finset.sum_range_succ]

lemma div_mul_add_lt {j k D HxW : ℕ} (hj : j < D) (hk : k < HxW) :
    j * HxW + k < D * HxW := by
  calc j * HxW + k < j * HxW + HxW := by omega
  _ = (j + 1) * HxW := by ring
  _ ≤ D * HxW := Nat.mul_le_mul_right HxW hj

lemma mul_add_div {q r n : ℕ} (h : r < n) : (q * n + r) / n = q := by
  rw [add_comm, Nat.add_mul_div_right r q (by omega), Nat.div_eq_of_lt h]
  omega

lemma mul_add_mod {q r n : ℕ} (h : r < n) : (q * n + r) % n = r := by
  rw [add_comm, Nat.add_mul_mod_self_right, Nat.mod_eq_of_lt h]

/-- Biased variance computed from centered squared deviations equals the
moment form `E[x^2] - mean^2` over a field, the mean being the sum divided
by the count. -/
lemma centered_var_eq (f : ℕ → K) (len : ℕ) :
    (∑ j ∈ Finset.range len, (f j - (∑ j ∈ Finset.range len, f j) / (len : K)) ^ 2) /
        (len : K) =
      (∑ j ∈ Finset.range len, f j ^ 2) / (len : K) -
        ((∑ j ∈ Finset.range len, f j) / (len : K)) ^ 2 := by
  rcases Nat.eq_zero_or_pos len with h0 | hpos
  · subst h0; simp
  have hn : ((len : K)) ≠ 0 := by
    exact_mod_cast Nat.pos_iff_ne_zero.mp hpos
  set S := ∑ j ∈ Finset.range len, f j with hS
  set Q := ∑ j ∈ Finset.range len, f j ^ 2 with hQ
  have hexp : ∑ j ∈ Finset.range len, (f j - S / (len : K)) ^ 2 =
      Q - 2 * (S / (len : K)) * S + (len : K) * (S / (len : K)) ^ 2 := by
    have : ∀ j, (f j - S / (len : K)) ^ 2 =
        f j ^ 2 - 2 * (S / (len : K)) * f j + (S / (len : K)) ^ 2 := by
      intro j; ring
    rw [Finset.sum_congr rfl fun j _ => this j]
    rw [Finset.sum_add_distrib, Finset.sum_sub_distrib, ← Finset.mul_sum,
      Finset.sum_const, Finset.card_range, nsmul_eq_mul]
  rw [hexp]
  field_simp
  ring


lemma cl_sum_eq (C HxW G T : ℕ) (tid : ℕ → ℕ) (f : ℕ → K) (n g : ℕ)
    (hT : ∀ m, m < HxW → tid (n * HxW + m) < T) :
    ∑ d ∈ Finset.range (C / G), ∑ t ∈ Finset.range T,
      (∑ m ∈ (Finset.range HxW).filter (fun m => tid (n * HxW + m) = t),
        f ((n * HxW + m) * C + (g * (C / G) + d))) =
    ∑ m ∈ Finset.range HxW, ∑ d ∈ Finset.range (C / G),
      f (n * (HxW * C) + g * (C / G) + m * C + d) := by
  have h1 : ∀ d : ℕ, ∑ t ∈ Finset.range T,
      (∑ m ∈ (Finset.range HxW).filter (fun m => tid (n * HxW + m) = t),
        f ((n * HxW + m) * C + (g * (C / G) + d))) =
      ∑ m ∈ Finset.range HxW, f ((n * HxW + m) * C + (g * (C / G) + d)) := by
    intro d
    exact Finset.sum_fiberwise_of_maps_to
      (fun m hm => Finset.mem_range.mpr (hT m (Finset.mem_range.mp hm))) _
  simp only [h1]
  rw [Finset.sum_comm]
  refine Finset.sum_congr rfl fun m hm => Finset.sum_congr rfl fun d hd => ?_
  congr 1
  ring

lemma clStats_eq (N C HxW G T : ℕ) (tid : ℕ → ℕ) (X : ℕ → K) (i : ℕ)
    (hn : i / G < N) (hT : ∀ p, p < N * HxW → tid p < T) :
    clSmallMean N C HxW G X i = clLargeMean N C HxW G T tid X i ∧
    clSmallVar N C HxW G X i = clLargeVar N C HxW G T tid X i ∧
    ∀ (invSqrt : K → K) (eps : K),
      clSmallRstd invSqrt N C HxW G eps X i =
        clLargeRstd invSqrt N C HxW G T tid eps X i := by
  have hT' : ∀ m, m < HxW → tid (i / G * HxW + m) < T := fun m hm =>
    hT _ (div_mul_add_lt hn hm)
  have hmean : clSmallMean N C HxW G X i = clLargeMean N C HxW G T tid X i := by
    simp only [clSmallMean, clLargeMean, columnwiseMoments, clThreadBuf]
    rw [cl_sum_eq C HxW G T tid X (i / G) (i % G) hT']
  have hvar : clSmallVar N C HxW G X i = clLargeVar N C HxW G T tid X i := by
    simp only [clSmallVar, clLargeVar, columnwiseMoments, clThreadBufSq]
    rw [cl_sum_eq C HxW G T tid (fun q => X q ^ 2) (i / G) (i % G) hT', hmean]
  exact ⟨hmean, hvar, fun invSqrt eps => by
    simp only [clSmallRstd, clLargeRstd, hvar]⟩

lemma clY_small_eq_large (invSqrt : K → K) (N C HxW G T : ℕ) (tid : ℕ → ℕ)
    (eps : K) (X : ℕ → K) (gamma beta : Option (ℕ → K)) (hG : 0 < G)
    (hdvd : G ∣ C) (hT : ∀ p, p < N * HxW → tid p < T) (idx : ℕ)
    (hidx : idx < N * HxW * C) :
    clSmallY invSqrt N C HxW G eps X gamma beta idx =
      clLargeY invSqrt N C HxW G T tid eps X gamma beta idx := by
  have hprod : 0 < N * HxW * C := Nat.lt_of_le_of_lt (Nat.zero_le idx) hidx
  have hC : 0 < C := by
    rcases Nat.eq_zero_or_pos C with h0 | h
    · rw [h0, Nat.mul_zero] at hprod
      omega
    · exact h
  have hH : 0 < HxW := by
    rcases Nat.eq_zero_or_pos HxW with h0 | h
    · rw [h0, Nat.mul_zero, Nat.zero_mul] at hprod
      omega
    · exact h
  have hHC : 0 < HxW * C := Nat.mul_pos hH hC
  have hdd : idx / C / HxW = idx / (HxW * C) := by
    rw [Nat.div_div_eq_div_mul, mul_comm]
  have hn : idx / (HxW * C) < N := by
    rw [Nat.div_lt_iff_lt_mul hHC]
    rw [← mul_assoc]
    exact hidx
  have hCG : G * (C / G) = C := Nat.mul_div_cancel' hdvd
  have hD : 0 < C / G := by
    rcases Nat.eq_zero_or_pos (C / G) with h0 | h
    · rw [h0, Nat.mul_zero] at hCG
      omega
    · exact h
  have hg : idx % C / (C / G) < G := by
    rw [Nat.div_lt_iff_lt_mul hD, hCG]
    exact Nat.mod_lt idx hC
  have hstats := clStats_eq N C HxW G T tid X
    (idx / (HxW * C) * G + idx % C / (C / G))
    (by rw [mul_add_div hg]; exact hn) hT
  simp only [clSmallY, clLargeY, clScaleBias, hdd, hstats.1,
    hstats.2.2 invSqrt eps]


lemma packed_clSmall_stats (N C HxW G : ℕ) (Xp Xcl : ℕ → K) (i : ℕ)
    (hG : 0 < G) (hdvd : G ∣ C) (hi : i < N * G)
    (hrel : ∀ n m cc, n < N → m < HxW → cc < C →
      Xcl (n * (HxW * C) + m * C + cc) = Xp ((n * C + cc) * HxW + m)) :
    packedMean N C HxW G Xp i = clSmallMean N C HxW G Xcl i ∧
    max (packedVar N C HxW G Xp i) 0 = clSmallVar N C HxW G Xcl i := by
  have hCG : G * (C / G) = C := Nat.mul_div_cancel' hdvd
  have hn : i / G < N := (Nat.div_lt_iff_lt_mul hG).mpr hi
  have hgG : i % G < G := Nat.mod_lt i hG
  have hkey : ∀ d : ℕ, i / G * C + (i % G * (C / G) + d) = i * (C / G) + d := by
    intro d
    have h2 : G * (i / G) + i % G = i := Nat.div_add_mod i G
    calc i / G * C + (i % G * (C / G) + d)
        = i / G * (G * (C / G)) + (i % G * (C / G) + d) := by rw [hCG]
      _ = (G * (i / G) + i % G) * (C / G) + d := by ring
      _ = i * (C / G) + d := by rw [h2]
  have hcc : ∀ d : ℕ, d < C / G → i % G * (C / G) + d < C := by
    intro d hd
    calc i % G * (C / G) + d < G * (C / G) := div_mul_add_lt hgG hd
      _ = C := hCG
  have hgen : ∀ f : ℕ → K,
      ∑ q ∈ Finset.range (C / G * HxW), f (i * (C / G * HxW) + q) =
      ∑ m ∈ Finset.range HxW, ∑ d ∈ Finset.range (C / G),
        f ((i / G * C + (i % G * (C / G) + d)) * HxW + m) := by
    intro f
    rw [sum_range_mul (fun q => f (i * (C / G * HxW) + q)) (C / G) HxW,
      Finset.sum_comm]
    refine Finset.sum_congr rfl fun m hm => Finset.sum_congr rfl fun d hd => ?_
    congr 1
    rw [hkey d]
    ring
  have hS : ∑ q ∈ Finset.range (C / G * HxW), Xp (i * (C / G * HxW) + q) =
      ∑ m ∈ Finset.range HxW, ∑ d ∈ Finset.range (C / G),
        Xcl (i / G * (HxW * C) + i % G * (C / G) + m * C + d) := by
    rw [hgen Xp]
    refine Finset.sum_congr rfl fun m hm => Finset.sum_congr rfl fun d hd => ?_
    rw [← hrel (i / G) m (i % G * (C / G) + d) hn (Finset.mem_range.mp hm)
      (hcc d (Finset.mem_range.mp hd))]
    congr 1
    ring
  have hQ : ∑ q ∈ Finset.range (C / G * HxW), Xp (i * (C / G * HxW) + q) ^ 2 =
      ∑ m ∈ Finset.range HxW, ∑ d ∈ Finset.range (C / G),
        Xcl (i / G * (HxW * C) + i % G * (C / G) + m * C + d) ^ 2 := by
    rw [hgen (fun q => Xp q ^ 2)]
    refine Finset.sum_congr rfl fun m hm => Finset.sum_congr rfl fun d hd => ?_
    rw [← hrel (i / G) m (i % G * (C / G) + d) hn (Finset.mem_range.mp hm)
      (hcc d (Finset.mem_range.mp hd))]
    congr 2
    ring
  have hmean : packedMean N C HxW G Xp i = clSmallMean N C HxW G Xcl i := by
    simp only [packedMean, rowwiseMoments, clSmallMean, columnwiseMoments]
    rw [hS, div_eq_mul_inv]
  refine ⟨hmean, ?_⟩
  simp only [packedVar, rowwiseMoments, clSmallVar, columnwiseMoments]
  rw [centered_var_eq (fun q => Xp (i * (C / G * HxW) + q)) (C / G * HxW)]
  have hmean2 : (∑ q ∈ Finset.range (C / G * HxW),
        Xp (i * (C / G * HxW) + q)) / ((C / G * HxW : ℕ) : K) =
      clSmallMean N C HxW G Xcl i := by
    simp only [clSmallMean, columnwiseMoments]
    rw [hS, div_eq_mul_inv]
  rw [hmean2, hQ, div_eq_mul_inv]

lemma clSmallY_eq_packedY (invSqrt : K → K) (N C HxW G : ℕ) (eps : K)
    (Xp Xcl : ℕ → K) (gamma beta : Option (ℕ → K)) (hG : 0 < G)
    (hdvd : G ∣ C)
    (hrel : ∀ n m cc, n < N → m < HxW → cc < C →
      Xcl (n * (HxW * C) + m * C + cc) = Xp ((n * C + cc) * HxW + m))
    (n m cc : ℕ) (hn : n < N) (hm : m < HxW) (hcc : cc < C) :
    clSmallY invSqrt N C HxW G eps Xcl gamma beta (n * (HxW * C) + m * C + cc) =
      packedY invSqrt N C HxW G eps Xp gamma beta ((n * C + cc) * HxW + m) := by
  obtain ⟨D, hCD⟩ : ∃ D, C = G * D := ⟨C / G, (Nat.mul_div_cancel' hdvd).symm⟩
  have hDval : C / G = D := by
    rw [hCD]
    exact Nat.mul_div_cancel_left D hG
  have hD : 0 < D := by
    rcases Nat.eq_zero_or_pos D with h0 | h
    · rw [h0, Nat.mul_zero] at hCD
      omega
    · exact h
  have hg : cc / D < G := by
    rw [Nat.div_lt_iff_lt_mul hD, ← hCD]
    exact hcc
  have hj : cc % D < D := Nat.mod_lt cc hD
  have hcdec : cc / D * D + cc % D = cc := by
    rw [mul_comm]
    exact Nat.div_add_mod cc D
  have e1 : (n * (HxW * C) + m * C + cc) / (HxW * C) = n := by
    rw [add_assoc]
    exact mul_add_div (div_mul_add_lt hm hcc)
  have e2 : (n * (HxW * C) + m * C + cc) % C = cc := by
    rw [show n * (HxW * C) + m * C + cc = (n * HxW + m) * C + cc from by ring]
    exact mul_add_mod hcc
  have hidx : (n * C + cc) * HxW + m =
      (n * G + cc / D) * (D * HxW) + (cc % D * HxW + m) := by
    have h1 : (n * G + cc / D) * (D * HxW) + (cc % D * HxW + m) =
        n * (G * D) * HxW + (cc / D * D + cc % D) * HxW + m := by ring
    rw [h1, hcdec, ← hCD]
    ring
  have hlt : cc % D * HxW + m < D * HxW := div_mul_add_lt hj hm
  have e3 : ((n * C + cc) * HxW + m) / (D * HxW) = n * G + cc / D := by
    rw [hidx]
    exact mul_add_div hlt
  have e4 : ((n * C + cc) * HxW + m) % (D * HxW) = cc % D * HxW + m := by
    rw [hidx]
    exact mul_add_mod hlt
  have e5 : (n * G + cc / D) % G = cc / D := mul_add_mod hg
  have hiNG : n * G + cc / D < N * G := div_mul_add_lt hn hg
  obtain ⟨hmean, hvar⟩ := packed_clSmall_stats N C HxW G Xp Xcl
    (n * G + cc / D) hG hdvd hiNG hrel
  have hrstd : packedRstd invSqrt N C HxW G eps Xp (n * G + cc / D) =
      clSmallRstd invSqrt N C HxW G eps Xcl (n * G + cc / D) := by
    simp only [packedRstd, clSmallRstd, hvar]
  have hX := hrel n m cc hn hm hcc
  rcases gamma with _ | γ <;> rcases beta with _ | β <;>
    simp only [clSmallY, packedY, clScaleBias, gammaVal, betaVal, hDval, e1,
      e2, e3, e4, e5, hmean, hrstd, hX, mul_add_div hm, hcdec] <;>
    ring

lemma binExp_eps : binExp (1 / 100000 : ℚ) = -17 := by
  have h0 : (0 : ℚ) < 1 / 100000 := by norm_num
  rw [binExp, abs_of_pos h0]
  have h1 := (Int.zpow_le_iff_le_log (b := 2) (r := (1 / 100000 : ℚ)) (x := -17)
    (by norm_num) h0).mp (by norm_num)
  have h2 := (Int.lt_zpow_iff_log_lt (b := 2) (r := (1 / 100000 : ℚ)) (x := -16)
    (by norm_num) h0).mp (by norm_num)
  omega

lemma roundFP8_eps : roundFP 8 (1 / 100000 : ℚ) = 21 / 2097152 := by
  rw [roundFP, if_neg (by norm_num : ¬(1 / 100000 : ℚ) = 0), binExp_eps]
  have he : (-17 - (((8 : ℕ) : ℤ) - 1)) = (-24 : ℤ) := by norm_num
  rw [he, roundAt]
  have hx : (1 / 100000 : ℚ) * (2 : ℚ) ^ (-(-24 : ℤ)) = 16777216 / 100000 := by
    norm_num
  rw [hx]
  have hfl : ⌊(16777216 / 100000 : ℚ)⌋ = 167 := by
    rw [Int.floor_eq_iff]
    constructor <;> norm_num
  rw [hfl]
  norm_num

lemma roundFP24_eps : roundFP 24 (1 / 100000 : ℚ) = 2748779 / 274877906944 := by
  rw [roundFP, if_neg (by norm_num : ¬(1 / 100000 : ℚ) = 0), binExp_eps]
  have he : (-17 - (((24 : ℕ) : ℤ) - 1)) = (-40 : ℤ) := by norm_num
  rw [he, roundAt]
  have hx : (1 / 100000 : ℚ) * (2 : ℚ) ^ (-(-40 : ℤ)) = 1099511627776 / 100000 := by
    norm_num
  rw [hx]
  have hfl : ⌊(1099511627776 / 100000 : ℚ)⌋ = 10995116 := by
    rw [Int.floor_eq_iff]
    constructor <;> norm_num
  rw [hfl]
  norm_num

end Helpers

section Theorems

variable {K : Type} [LinearOrderedField K]

/-- Claim C7: for every forward input, the call with `gamma` and `beta` both
absent produces a `Y` identical element for element to the call with an
explicit all-ones `gamma` and all-zeros `beta`, even though the absent case
takes the direct-normalization branch `(x - mean)*rstd` and the explicit case
computes `scale*x + bias` with `scale = rstd`, `bias = -rstd*mean`; this
holds for the packed path and for both channels-last paths. -/
theorem spec_C7 (invSqrt : K → K) (N C HxW G T : ℕ) (tid : ℕ → ℕ) (eps : K)
    (X : ℕ → K) (idx : ℕ) :
    packedY invSqrt N C HxW G eps X none none idx =
      packedY invSqrt N C HxW G eps X (some fun _ => 1) (some fun _ => 0) idx ∧
    clY invSqrt N C HxW G T tid eps X none none idx =
      clY invSqrt N C HxW G T tid eps X (some fun _ => 1) (some fun _ => 0) idx := by
  refine ⟨?_, ?_⟩
  · simp only [packedY, gammaVal, betaVal]
    ring
  · unfold clY
    split
    · simp only [clSmallY, clScaleBias, gammaVal, betaVal]
    · simp only [clLargeY, clScaleBias, gammaVal, betaVal]

/-- Claim C8, counterexample: with BFloat16 storage the epsilon that reaches
the reciprocal square root is `static_cast<scalar_t>(eps)` — a rounding to
the 8-bit-significand storage precision — and for the concrete caller value
`eps = 1e-5` this differs from `eps` represented in the accumulation
precision (float, 24 significant bits), refuting the claim that the eps used
carries no rounding to the storage precision. -/
theorem cex_C8 :
    epsUsed Storage.bfloat16 (1 / 100000) ≠ epsAccum Storage.bfloat16 (1 / 100000) := by
  show roundFP 8 (1 / 100000) ≠ roundFP 24 (1 / 100000)
  rw [roundFP8_eps, roundFP24_eps]
  norm_num

/-- Claim C8 (amended): the epsilon added before the reciprocal square root
is the caller-supplied double `eps` cast first to the storage precision and
then widened exactly to accumulation precision.  For double and float
storage this coincides with the eps represented in accumulation precision,
but for BFloat16 storage the value is rounded to the 8-bit storage
significand: at `eps = 1e-5` the value used is `21/2097152 ≈ 1.0014e-5`
while the accumulation-precision representation is
`2748779/2^38 ≈ 0.99999997e-5`. -/
theorem spec_C8 :
    (∀ eps : ℚ, epsUsed Storage.double eps = eps) ∧
    (∀ eps : ℚ, epsUsed Storage.float eps = epsAccum Storage.float eps) ∧
    (∀ (st : Storage) (eps var : ℚ),
      rstdArgOfVar st eps var = max var 0 + epsUsed st eps) ∧
    epsUsed Storage.bfloat16 (1 / 100000) = 21 / 2097152 ∧
    epsAccum Storage.bfloat16 (1 / 100000) = 2748779 / 274877906944 :=
  ⟨fun _ => rfl, fun _ => rfl, fun _ _ _ => rfl, roundFP8_eps, roundFP24_eps⟩

/-- Claim C1: any call to the forward or backward entry point whose inputs
violate a shape precondition (element-count mismatch of `X`, `dY`, a present
`gamma`/`beta`, `mean`/`rstd`, or `C` not divisible by `G`) fails
synchronously — the flag component is `false` — and every output buffer is
returned exactly as the caller supplied it, no element having been
written. -/
theorem spec_C1 :
    (∀ (invSqrt : K → K) (layout : Layout) (N C HxW G : ℕ) (eps : K)
        (X : List K) (gamma beta : Option (List K)) (T : ℕ) (tid : ℕ → ℕ)
        (Y0 mean0 rstd0 : ℕ → K),
      forwardChecksOK N C HxW G X gamma beta = false →
      groupNormForwardEntry invSqrt layout N C HxW G eps X gamma beta T tid
          Y0 mean0 rstd0 = (false, Y0, mean0, rstd0)) ∧
    (∀ (N C HxW G : ℕ) (dY X mean rstd : List K) (gamma : Option (List K))
        (wantDX wantDGamma wantDBeta : Bool) (dX0 dgamma0 dbeta0 : ℕ → K),
      backwardChecksOK N C HxW G dY X mean rstd gamma = false →
      groupNormBackwardEntry N C HxW G dY X mean rstd gamma
          wantDX wantDGamma wantDBeta dX0 dgamma0 dbeta0 =
        (false, dX0, dgamma0, dbeta0)) := by
  constructor
  · intro invSqrt layout N C HxW G eps X gamma beta T tid Y0 mean0 rstd0 h
    rw [groupNormForwardEntry, if_neg]
    simp [h]
  · intro N C HxW G dY X mean rstd gamma wantDX wantDGamma wantDBeta
      dX0 dgamma0 dbeta0 h
    rw [groupNormBackwardEntry, if_neg]
    simp [h]

/-- Witness for C1 at a concrete violating input: an empty `X` with
`N = C = HxW = G = 1` (and, for backward, empty `dY`/`X`/`mean`/`rstd`). -/
theorem wit_C1 :
    groupNormForwardEntry (K := ℚ) (fun x => x) Layout.packed 1 1 1 1 1 []
        none none 1 (fun _ => 0) (fun _ => 0) (fun _ => 0) (fun _ => 0) =
      (false, fun _ => 0, fun _ => 0, fun _ => 0) ∧
    groupNormBackwardEntry (K := ℚ) 1 1 1 1 [] [] [] [] none true true true
        (fun _ => 0) (fun _ => 0) (fun _ => 0) =
      (false, fun _ => 0, fun _ => 0, fun _ => 0) :=
  ⟨spec_C1.1 (fun x => x) Layout.packed 1 1 1 1 1 [] none none 1
      (fun _ => 0) (fun _ => 0) (fun _ => 0) (fun _ => 0) (by decide),
   spec_C1.2 1 1 1 1 [] [] [] [] none true true true
      (fun _ => 0) (fun _ => 0) (fun _ => 0) (by decide)⟩

/-- Claim C9: for every valid backward call, each of `dX`, `dGamma`, `dBeta`
is written if and only if it was requested: an unrequested buffer is returned
exactly as supplied (untouched for the whole call), and a requested buffer
carries the computed gradient on the written window and the prior contents
outside it. -/
theorem spec_C9 (N C HxW G : ℕ) (dY X mean rstd : List K)
    (gamma : Option (List K)) (wantDX wantDGamma wantDBeta : Bool)
    (dX0 dgamma0 dbeta0 : ℕ → K)
    (hchk : backwardChecksOK N C HxW G dY X mean rstd gamma = true) :
    (wantDX = false →
      (groupNormBackwardEntry N C HxW G dY X mean rstd gamma wantDX wantDGamma
          wantDBeta dX0 dgamma0 dbeta0).2.1 = dX0) ∧
    (wantDGamma = false →
      (groupNormBackwardEntry N C HxW G dY X mean rstd gamma wantDX wantDGamma
          wantDBeta dX0 dgamma0 dbeta0).2.2.1 = dgamma0) ∧
    (wantDBeta = false →
      (groupNormBackwardEntry N C HxW G dY X mean rstd gamma wantDX wantDGamma
          wantDBeta dX0 dgamma0 dbeta0).2.2.2 = dbeta0) ∧
    (wantDX = true → ∀ idx, idx < N * C * HxW →
      (groupNormBackwardEntry N C HxW G dY X mean rstd gamma wantDX wantDGamma
          wantDBeta dX0 dgamma0 dbeta0).2.1 idx =
        groupNormInputBackward N C HxW G (bget dY) (bget X) (bget mean)
          (bget rstd) (gamma.map fun l => bget l)
          (dsFun (bget dY) (bget X) HxW) (dbFun (bget dY) HxW) idx) ∧
    (wantDX = true → ∀ idx, ¬ idx < N * C * HxW →
      (groupNormBackwardEntry N C HxW G dY X mean rstd gamma wantDX wantDGamma
          wantDBeta dX0 dgamma0 dbeta0).2.1 idx = dX0 idx) ∧
    (wantDGamma = true → ∀ c, c < C →
      (groupNormBackwardEntry N C HxW G dY X mean rstd gamma wantDX wantDGamma
          wantDBeta dX0 dgamma0 dbeta0).2.2.1 c =
        gammaBackward N C G (bget mean) (bget rstd)
          (dsFun (bget dY) (bget X) HxW) (dbFun (bget dY) HxW) c) ∧
    (wantDGamma = true → ∀ c, ¬ c < C →
      (groupNormBackwardEntry N C HxW G dY X mean rstd gamma wantDX wantDGamma
          wantDBeta dX0 dgamma0 dbeta0).2.2.1 c = dgamma0 c) ∧
    (wantDBeta = true → ∀ c, c < C →
      (groupNormBackwardEntry N C HxW G dY X mean rstd gamma wantDX wantDGamma
          wantDBeta dX0 dgamma0 dbeta0).2.2.2 c =
        betaBackward N C (dbFun (bget dY) HxW) c) ∧
    (wantDBeta = true → ∀ c, ¬ c < C →
      (groupNormBackwardEntry N C HxW G dY X mean rstd gamma wantDX wantDGamma
          wantDBeta dX0 dgamma0 dbeta0).2.2.2 c = dbeta0 c) := by
  rw [groupNormBackwardEntry, if_pos hchk]
  refine ⟨fun h => by simp [h], fun h => by simp [h], fun h => by simp [h],
    fun h idx hi => by simp [h, hi], fun h idx hi => by simp [h, hi],
    fun h c hc => by simp [h, hc], fun h c hc => by simp [h, hc],
    fun h c hc => by simp [h, hc], fun h c hc => by simp [h, hc]⟩

/-- Witness for C9: a concrete valid call (`N = C = HxW = G = 1`) requesting
only `dBeta` leaves the `dX` and `dGamma` buffers exactly as supplied and
stores the computed `dBeta` in the written window. -/
theorem wit_C9 :
    (groupNormBackwardEntry (K := ℚ) 1 1 1 1 [1] [2] [0] [1] none
        false false true (fun _ => 5) (fun _ => 5) (fun _ => 5)).2.1 =
      (fun _ => 5) ∧
    (groupNormBackwardEntry (K := ℚ) 1 1 1 1 [1] [2] [0] [1] none
        false false true (fun _ => 5) (fun _ => 5) (fun _ => 5)).2.2.1 =
      (fun _ => 5) ∧
    (groupNormBackwardEntry (K := ℚ) 1 1 1 1 [1] [2] [0] [1] none
        false false true (fun _ => 5) (fun _ => 5) (fun _ => 5)).2.2.2 0 =
      betaBackward 1 1 (dbFun (bget [1]) 1) 0 := by
  have h := spec_C9 (K := ℚ) 1 1 1 1 [1] [2] [0] [1] none false false true
    (fun _ => 5) (fun _ => 5) (fun _ => 5) (by decide)
  exact ⟨h.1 rfl, h.2.1 rfl, h.2.2.2.2.2.2.2.1 rfl 0 (by decide)⟩

/-- Claim C10: for every valid backward call requesting `dBeta`, the produced
`dBeta[c]` is the sum over batches and spatial positions of `dY`, and depends
only on `dY`, `N`, `C`, `HxW`: a second run differing only in `X`, `mean`,
`rstd`, `gamma`, the request flags for the other gradients, or the prior
contents of the output buffers produces the identical `dBeta`. -/
theorem spec_C10 (N C HxW G : ℕ) (dY X mean rstd : List K)
    (gamma : Option (List K)) (w₁ w₂ : Bool) (dX0 dgamma0 dbeta0 : ℕ → K)
    (hchk : backwardChecksOK N C HxW G dY X mean rstd gamma = true) :
    (∀ c, c < C →
      (groupNormBackwardEntry N C HxW G dY X mean rstd gamma w₁ w₂ true
          dX0 dgamma0 dbeta0).2.2.2 c =
        ∑ n ∈ Finset.range N, ∑ k ∈ Finset.range HxW,
          bget dY ((n * C + c) * HxW + k)) ∧
    (∀ (X₂ mean₂ rstd₂ : List K) (gamma₂ : Option (List K)) (w₁' w₂' : Bool)
        (dX0' dgamma0' dbeta0' : ℕ → K),
      backwardChecksOK N C HxW G dY X₂ mean₂ rstd₂ gamma₂ = true →
      ∀ c, c < C →
        (groupNormBackwardEntry N C HxW G dY X₂ mean₂ rstd₂ gamma₂ w₁' w₂' true
            dX0' dgamma0' dbeta0').2.2.2 c =
          (groupNormBackwardEntry N C HxW G dY X mean rstd gamma w₁ w₂ true
              dX0 dgamma0 dbeta0).2.2.2 c) := by
  have key : ∀ (X' mean' rstd' : List K) (gamma' : Option (List K))
      (a b : Bool) (p q r : ℕ → K),
      backwardChecksOK N C HxW G dY X' mean' rstd' gamma' = true →
      ∀ c, c < C →
        (groupNormBackwardEntry N C HxW G dY X' mean' rstd' gamma' a b true
            p q r).2.2.2 c =
          ∑ n ∈ Finset.range N, ∑ k ∈ Finset.range HxW,
            bget dY ((n * C + c) * HxW + k) := by
    intro X' mean' rstd' gamma' a b p q r hchk' c hc
    rw [groupNormBackwardEntry, if_pos hchk']
    simp only [if_true]
    rw [if_pos hc]
    simp only [betaBackward, dbFun]
  refine ⟨key X mean rstd gamma w₁ w₂ dX0 dgamma0 dbeta0 hchk, ?_⟩
  intro X₂ mean₂ rstd₂ gamma₂ w₁' w₂' dX0' dgamma0' dbeta0' hchk₂ c hc
  rw [key X₂ mean₂ rstd₂ gamma₂ w₁' w₂' dX0' dgamma0' dbeta0' hchk₂ c hc,
    key X mean rstd gamma w₁ w₂ dX0 dgamma0 dbeta0 hchk c hc]

/-- Witness for C10: concrete valid backward call with `dY = [3]`; `dBeta[0]`
equals the `dY` sum, and a second run with different `X`, statistics and
prior buffer contents produces the same value. -/
theorem wit_C10 :
    (∀ c, c < 1 →
      (groupNormBackwardEntry (K := ℚ) 1 1 1 1 [3] [2] [0] [1] none
          true true true (fun _ => 5) (fun _ => 5) (fun _ => 5)).2.2.2 c =
        ∑ n ∈ Finset.range 1, ∑ k ∈ Finset.range 1,
          bget [(3 : ℚ)] ((n * 1 + c) * 1 + k)) ∧
    (∀ c, c < 1 →
      (groupNormBackwardEntry (K := ℚ) 1 1 1 1 [3] [7] [1] [2] none
          false false true (fun _ => 9) (fun _ => 9) (fun _ => 9)).2.2.2 c =
        (groupNormBackwardEntry (K := ℚ) 1 1 1 1 [3] [2] [0] [1] none
            true true true (fun _ => 5) (fun _ => 5) (fun _ => 5)).2.2.2 c) := by
  have h := spec_C10 (K := ℚ) 1 1 1 1 [3] [2] [0] [1] none true true
    (fun _ => 5) (fun _ => 5) (fun _ => 5) (by decide)
  exact ⟨h.1, fun c hc => h.2 [7] [1] [2] none false false
    (fun _ => 9) (fun _ => 9) (fun _ => 9) (by decide) c hc⟩

/-- Claim C2: for every valid backward call requesting `dX`, the embedded
kernel value at `dX[n,c,k]` equals the closed form stated by the spec,
`c1*dY + c2*X + c3` with the gamma-weighted group sums `ds_g`, `db_g`,
`s = 1/(D*HxW)`, `c1 = rstd*gamma[c]`, `c2 = (db_g*mean - ds_g)*rstd^3*s`
and `c3 = -c2*mean - db_g*rstd*s`. -/
theorem spec_C2 (N C HxW G : ℕ) (dY X mean rstd : ℕ → K)
    (gamma : Option (ℕ → K)) (hG : 0 < G) (hdvd : G ∣ C)
    (n c k : ℕ) (hn : n < N) (hc : c < C) (hk : k < HxW) :
    groupNormInputBackward N C HxW G dY X mean rstd gamma
        (dsFun dY X HxW) (dbFun dY HxW) ((n * C + c) * HxW + k) =
      specDX N C HxW G dY X mean rstd gamma n c k := by
  have hCG : G * (C / G) = C := Nat.mul_div_cancel' hdvd
  set D := C / G with hDdef
  have hD : 0 < D := by
    rcases Nat.eq_zero_or_pos D with h0 | h
    · rw [h0, Nat.mul_zero] at hCG
      omega
    · exact h
  have hg : c / D < G := by
    rw [Nat.div_lt_iff_lt_mul hD, mul_comm G D, mul_comm] at *
    rw [hCG]
    exact hc
  set g := c / D with hgdef
  set j := c % D with hjdef
  have hj : j < D := Nat.mod_lt c hD
  have hcdec : g * D + j = c := by
    rw [mul_comm]
    exact Nat.div_add_mod c D
  have hidx : (n * C + c) * HxW + k = (n * G + g) * (D * HxW) + (j * HxW + k) := by
    rw [← hCG, ← hcdec]
    ring
  have hlt : j * HxW + k < D * HxW := div_mul_add_lt hj hk
  have hsum : ∀ q : ℕ, (n * G + g) * D + q = n * C + (g * D + q) := by
    intro q
    rw [← hCG]
    ring
  simp only [groupNormInputBackward, specDX, inputBwdC2, inputBwdC3,
    inputBwdDsVal, inputBwdDbVal, dsFun, dbFun, hidx, mul_add_div hlt,
    mul_add_mod hlt, mul_add_div hk, mul_add_mod hg, hsum, hcdec]
  ring

/-- Witness for C2 at a concrete instance (`N = C = HxW = G = 1`, `dY = X =
mean = rstd` all constant). -/
theorem wit_C2 :
    groupNormInputBackward (K := ℚ) 1 1 1 1 (fun _ => 1) (fun _ => 2)
        (fun _ => 0) (fun _ => 1) none
        (dsFun (fun _ => 1) (fun _ => 2) 1) (dbFun (fun _ => 1) 1)
        ((0 * 1 + 0) * 1 + 0) =
      specDX 1 1 1 1 (fun _ => 1) (fun _ => 2) (fun _ => 0) (fun _ => 1)
        none 0 0 0 :=
  spec_C2 1 1 1 1 (fun _ => 1) (fun _ => 2) (fun _ => 0) (fun _ => 1) none
    (by decide) (by decide) 0 0 0 (by decide) (by decide) (by decide)

/-- Claim C5: for every valid interleaved-layout input, the small-spatial
path (selected when `HxW < 1024`) and the large-spatial path (selected
otherwise) compute the same `mean`, `rstd` and `Y` on identical logical
input, for any worker count `T` and any scheduler assignment `tid` of
positions to workers; and the dispatcher selects exactly by the fixed
threshold 1024. -/
theorem spec_C5 (invSqrt : K → K) (N C HxW G T : ℕ) (tid : ℕ → ℕ) (eps : K)
    (X : ℕ → K) (gamma beta : Option (ℕ → K)) (hG : 0 < G) (hdvd : G ∣ C)
    (hT : ∀ p, p < N * HxW → tid p < T) :
    (∀ i, i < N * G →
      clSmallMean N C HxW G X i = clLargeMean N C HxW G T tid X i ∧
      clSmallRstd invSqrt N C HxW G eps X i =
        clLargeRstd invSqrt N C HxW G T tid eps X i) ∧
    (∀ idx, idx < N * HxW * C →
      clSmallY invSqrt N C HxW G eps X gamma beta idx =
        clLargeY invSqrt N C HxW G T tid eps X gamma beta idx) ∧
    (HxW < 1024 →
      clY invSqrt N C HxW G T tid eps X gamma beta =
        clSmallY invSqrt N C HxW G eps X gamma beta) ∧
    (1024 ≤ HxW →
      clY invSqrt N C HxW G T tid eps X gamma beta =
        clLargeY invSqrt N C HxW G T tid eps X gamma beta) := by
  refine ⟨fun i hi => ?_, fun idx hidx =>
    clY_small_eq_large invSqrt N C HxW G T tid eps X gamma beta hG hdvd hT
      idx hidx, fun h => ?_, fun h => ?_⟩
  · have hstats := clStats_eq N C HxW G T tid X i
      ((Nat.div_lt_iff_lt_mul hG).mpr hi) hT
    exact ⟨hstats.1, hstats.2.2 invSqrt eps⟩
  · simp only [clY, featureMapThreshold]
    rw [if_pos h]
  · simp only [clY, featureMapThreshold]
    rw [if_neg (by omega)]

/-- Witness for C5 at a concrete instance: `N = C = G = 1`, `HxW = 2`,
one worker owning every position. -/
theorem wit_C5 :
    (∀ i, i < 1 * 1 →
      clSmallMean (K := ℚ) 1 1 2 1 (fun q => (q : ℚ)) i =
        clLargeMean 1 1 2 1 1 (fun _ => 0) (fun q => (q : ℚ)) i ∧
      clSmallRstd (fun x => x) 1 1 2 1 (1 : ℚ) (fun q => (q : ℚ)) i =
        clLargeRstd (fun x => x) 1 1 2 1 1 (fun _ => 0) 1
          (fun q => (q : ℚ)) i) ∧
    (∀ idx, idx < 1 * 2 * 1 →
      clSmallY (fun x => x) 1 1 2 1 (1 : ℚ) (fun q => (q : ℚ)) none none idx =
        clLargeY (fun x => x) 1 1 2 1 1 (fun _ => 0) 1 (fun q => (q : ℚ))
          none none idx) ∧
    (2 < 1024 →
      clY (fun x => x) 1 1 2 1 1 (fun _ => 0) (1 : ℚ) (fun q => (q : ℚ))
          none none =
        clSmallY (fun x => x) 1 1 2 1 1 (fun q => (q : ℚ)) none none) ∧
    (1024 ≤ 2 →
      clY (fun x => x) 1 1 2 1 1 (fun _ => 0) (1 : ℚ) (fun q => (q : ℚ))
          none none =
        clLargeY (fun x => x) 1 1 2 1 1 (fun _ => 0) 1 (fun q => (q : ℚ))
          none none) :=
  spec_C5 (fun x => x) 1 1 2 1 1 (fun _ => 0) 1 (fun q => (q : ℚ)) none none
    (by decide) (by decide) (fun p hp => Nat.zero_lt_one)

/-- Claim C4: on the same logical data — `Xp` in packed `[N, C, HxW]` layout
and `Xcl` in interleaved `[N, HxW, C]` layout, related by the reshaping
`Xcl[n, m, c] = Xp[n, c, m]` — the packed forward and the interleaved
forward produce the same `mean`, the same `rstd`, and the same logical `Y`,
exactly, over the exact-arithmetic embedding. -/
theorem spec_C4 (invSqrt : K → K) (N C HxW G T : ℕ) (tid : ℕ → ℕ) (eps : K)
    (Xp Xcl : ℕ → K) (gamma beta : Option (ℕ → K)) (hG : 0 < G)
    (hdvd : G ∣ C) (hT : ∀ p, p < N * HxW → tid p < T)
    (hrel : ∀ n m cc, n < N → m < HxW → cc < C →
      Xcl (n * (HxW * C) + m * C + cc) = Xp ((n * C + cc) * HxW + m)) :
    (∀ i, i < N * G →
      packedMean N C HxW G Xp i = clMean N C HxW G T tid Xcl i ∧
      packedRstd invSqrt N C HxW G eps Xp i =
        clRstd invSqrt N C HxW G T tid eps Xcl i) ∧
    (∀ n m cc, n < N → m < HxW → cc < C →
      clY invSqrt N C HxW G T tid eps Xcl gamma beta
          (n * (HxW * C) + m * C + cc) =
        packedY invSqrt N C HxW G eps Xp gamma beta
          ((n * C + cc) * HxW + m)) := by
  constructor
  · intro i hi
    obtain ⟨hmean, hvar⟩ := packed_clSmall_stats N C HxW G Xp Xcl i hG hdvd
      hi hrel
    have hstats := clStats_eq N C HxW G T tid Xcl i
      ((Nat.div_lt_iff_lt_mul hG).mpr hi) hT
    constructor
    · rw [clMean]
      split
      · exact hmean
      · rw [← hstats.1]
        exact hmean
    · rw [clRstd]
      split
      · simp only [packedRstd, clSmallRstd, hvar]
      · rw [← hstats.2.2 invSqrt eps]
        simp only [packedRstd, clSmallRstd, hvar]
  · intro n m cc hn hm hcc
    have hidxlt : n * (HxW * C) + m * C + cc < N * HxW * C := by
      rw [mul_assoc, add_assoc]
      exact div_mul_add_lt hn (div_mul_add_lt hm hcc)
    rw [clY]
    split
    · exact clSmallY_eq_packedY invSqrt N C HxW G eps Xp Xcl gamma beta hG
        hdvd hrel n m cc hn hm hcc
    · rw [← clY_small_eq_large invSqrt N C HxW G T tid eps Xcl gamma beta hG
        hdvd hT _ hidxlt]
      exact clSmallY_eq_packedY invSqrt N C HxW G eps Xp Xcl gamma beta hG
        hdvd hrel n m cc hn hm hcc

/-- Witness for C4 at a concrete instance: `N = C = HxW = G = T = 1` with
matching constant buffers in both layouts. -/
theorem wit_C4 :
    (∀ i, i < 1 * 1 →
      packedMean (K := ℚ) 1 1 1 1 (fun _ => 2) i =
        clMean 1 1 1 1 1 (fun _ => 0) (fun _ => 2) i ∧
      packedRstd (fun x => x) 1 1 1 1 (1 : ℚ) (fun _ => 2) i =
        clRstd (fun x => x) 1 1 1 1 1 (fun _ => 0) 1 (fun _ => 2) i) ∧
    (∀ n m cc, n < 1 → m < 1 → cc < 1 →
      clY (fun x => x) 1 1 1 1 1 (fun _ => 0) (1 : ℚ) (fun _ => 2)
          none none (n * (1 * 1) + m * 1 + cc) =
        packedY (fun x => x) 1 1 1 1 (1 : ℚ) (fun _ => 2) none none
          ((n * 1 + cc) * 1 + m)) :=
  spec_C4 (fun x => x) 1 1 1 1 1 (fun _ => 0) 1 (fun _ => 2) (fun _ => 2)
    none none (by decide) (by decide) (fun p hp => Nat.zero_lt_one)
    (fun n m cc hn hm hcc => rfl)

/-- Claim C6: with `eps > 0`, every emitted `rstd` equals
`1/sqrt(max(variance, 0) + eps)` and is positive (and finite, trivially, as
a real number); for a group whose elements are all equal the computed
variance is exactly `0`, so `rstd = 1/sqrt(eps)`; the embedded kernels are
total functions, so a zero or negative variance is clamped locally and never
propagated as an error. -/
theorem spec_C6 (N C HxW G T : ℕ) (tid : ℕ → ℕ) (eps : ℝ) (X : ℕ → ℝ)
    (heps : 0 < eps) (i : ℕ) :
    packedRstd invSqrtR N C HxW G eps X i =
      (Real.sqrt (max (packedVar N C HxW G X i) 0 + eps))⁻¹ ∧
    0 < packedRstd invSqrtR N C HxW G eps X i ∧
    0 < clSmallRstd invSqrtR N C HxW G eps X i ∧
    0 < clLargeRstd invSqrtR N C HxW G T tid eps X i ∧
    (∀ c0 : ℝ, 0 < C / G * HxW →
      (∀ j, j < C / G * HxW → X (i * (C / G * HxW) + j) = c0) →
      packedVar N C HxW G X i = 0 ∧
      packedRstd invSqrtR N C HxW G eps X i = (Real.sqrt eps)⁻¹) := by
  have hpos : ∀ v : ℝ, 0 < Real.sqrt (max v 0 + eps) := fun v =>
    Real.sqrt_pos.mpr (add_pos_of_nonneg_of_pos (le_max_right v 0) heps)
  refine ⟨rfl, ?_, ?_, ?_, ?_⟩
  · exact inv_pos.mpr (hpos (packedVar N C HxW G X i))
  · simp only [clSmallRstd, clSmallVar, invSqrtR]
    exact inv_pos.mpr (hpos _)
  · simp only [clLargeRstd, clLargeVar, invSqrtR]
    exact inv_pos.mpr (hpos _)
  · intro c0 hlen hconst
    have hS : ∑ j ∈ Finset.range (C / G * HxW), X (i * (C / G * HxW) + j) =
        ((C / G * HxW : ℕ) : ℝ) * c0 := by
      rw [Finset.sum_congr rfl fun j hj => hconst j (Finset.mem_range.mp hj),
        Finset.sum_const, Finset.card_range, nsmul_eq_mul]
    have hlenK : ((C / G * HxW : ℕ) : ℝ) ≠ 0 := by
      exact_mod_cast Nat.pos_iff_ne_zero.mp hlen
    have hmean : (∑ j ∈ Finset.range (C / G * HxW),
        X (i * (C / G * HxW) + j)) / ((C / G * HxW : ℕ) : ℝ) = c0 := by
      rw [hS, mul_comm, mul_div_assoc, div_self hlenK, mul_one]
    have hvar : packedVar N C HxW G X i = 0 := by
      simp only [packedVar, rowwiseMoments]
      rw [Finset.sum_congr rfl fun j hj => ?_]
      · rw [Finset.sum_const, Finset.card_range, smul_zero, zero_div]
      · rw [hconst j (Finset.mem_range.mp hj), hmean, sub_self]
        norm_num
    refine ⟨hvar, ?_⟩
    rw [packedRstd, hvar, invSqrtR]
    norm_num

/-- Witness for C6 at a concrete instance: `N = C = HxW = G = T = 1`,
`eps = 1`, constant zero input. -/
theorem wit_C6 :
    packedRstd invSqrtR 1 1 1 1 1 (fun _ => 0) 0 =
      (Real.sqrt (max (packedVar 1 1 1 1 (fun _ => 0) 0) 0 + 1))⁻¹ ∧
    0 < packedRstd invSqrtR 1 1 1 1 1 (fun _ => 0) 0 ∧
    0 < clSmallRstd invSqrtR 1 1 1 1 1 (fun _ => 0) 0 ∧
    0 < clLargeRstd invSqrtR 1 1 1 1 1 (fun _ => 0) 1 (fun _ => 0) 0 ∧
    (∀ c0 : ℝ, 0 < 1 / 1 * 1 →
      (∀ j, j < 1 / 1 * 1 → (fun _ => (0 : ℝ)) (0 * (1 / 1 * 1) + j) = c0) →
      packedVar 1 1 1 1 (fun _ => (0 : ℝ)) 0 = 0 ∧
      packedRstd invSqrtR 1 1 1 1 1 (fun _ => 0) 0 = (Real.sqrt 1)⁻¹) :=
  spec_C6 1 1 1 1 1 (fun _ => 0) 1 (fun _ => 0) one_pos 0

/-- Claim C3: packed-layout forward with `N = 1, C = 4, HxW = 1, G = 2`,
`X = [1,2,3,4]`, `gamma = [1,1,1,1]`, `beta = [0,0,0,0]`, `eps = 1e-5`:
the group means are exactly `1.5` and `3.5`, both variances exactly `0.25`,
both rstd values exactly `1/sqrt(0.25 + 1e-5) ≈ 1.99999` (within `1e-4`),
and `Y ≈ [-0.99999, 0.99999, -0.99999, 0.99999]` (each within `1e-4`). -/
theorem spec_C3 :
    packedMean 1 4 1 2 XC3 0 = 3 / 2 ∧
    packedMean 1 4 1 2 XC3 1 = 7 / 2 ∧
    packedVar 1 4 1 2 XC3 0 = 1 / 4 ∧
    packedVar 1 4 1 2 XC3 1 = 1 / 4 ∧
    packedRstd invSqrtR 1 4 1 2 (1 / 100000) XC3 0 =
      (Real.sqrt (1 / 4 + 1 / 100000))⁻¹ ∧
    packedRstd invSqrtR 1 4 1 2 (1 / 100000) XC3 1 =
      (Real.sqrt (1 / 4 + 1 / 100000))⁻¹ ∧
    |packedRstd invSqrtR 1 4 1 2 (1 / 100000) XC3 0 - 1.99999| < 1 / 10000 ∧
    |packedY invSqrtR 1 4 1 2 (1 / 100000) XC3 (some fun _ => 1)
        (some fun _ => 0) 0 - (-0.99999)| < 1 / 10000 ∧
    |packedY invSqrtR 1 4 1 2 (1 / 100000) XC3 (some fun _ => 1)
        (some fun _ => 0) 1 - 0.99999| < 1 / 10000 ∧
    |packedY invSqrtR 1 4 1 2 (1 / 100000) XC3 (some fun _ => 1)
        (some fun _ => 0) 2 - (-0.99999)| < 1 / 10000 ∧
    |packedY invSqrtR 1 4 1 2 (1 / 100000) XC3 (some fun _ => 1)
        (some fun _ => 0) 3 - 0.99999| < 1 / 10000 := by
  have hm0 : packedMean 1 4 1 2 XC3 0 = 3 / 2 := by
    norm_num [packedMean, rowwiseMoments, Finset.sum_range_succ, XC3]
  have hm1 : packedMean 1 4 1 2 XC3 1 = 7 / 2 := by
    norm_num [packedMean, rowwiseMoments, Finset.sum_range_succ, XC3]
  have hv0 : packedVar 1 4 1 2 XC3 0 = 1 / 4 := by
    norm_num [packedVar, rowwiseMoments, Finset.sum_range_succ, XC3]
  have hv1 : packedVar 1 4 1 2 XC3 1 = 1 / 4 := by
    norm_num [packedVar, rowwiseMoments, Finset.sum_range_succ, XC3]
  have hr0 : packedRstd invSqrtR 1 4 1 2 (1 / 100000) XC3 0 =
      (Real.sqrt (1 / 4 + 1 / 100000))⁻¹ := by
    rw [packedRstd, hv0, invSqrtR]
    norm_num
  have hr1 : packedRstd invSqrtR 1 4 1 2 (1 / 100000) XC3 1 =
      (Real.sqrt (1 / 4 + 1 / 100000))⁻¹ := by
    rw [packedRstd, hv1, invSqrtR]
    norm_num
  have hY0 : packedY invSqrtR 1 4 1 2 (1 / 100000) XC3 (some fun _ => 1)
      (some fun _ => 0) 0 =
      (Real.sqrt (1 / 4 + 1 / 100000))⁻¹ * 1 +
        -((Real.sqrt (1 / 4 + 1 / 100000))⁻¹ * (3 / 2)) := by
    norm_num [packedY, packedRstd, packedMean, packedVar, rowwiseMoments,
      Finset.sum_range_succ, XC3, gammaVal, betaVal, invSqrtR]
  have hY1 : packedY invSqrtR 1 4 1 2 (1 / 100000) XC3 (some fun _ => 1)
      (some fun _ => 0) 1 =
      (Real.sqrt (1 / 4 + 1 / 100000))⁻¹ * 2 +
        -((Real.sqrt (1 / 4 + 1 / 100000))⁻¹ * (3 / 2)) := by
    norm_num [packedY, packedRstd, packedMean, packedVar, rowwiseMoments,
      Finset.sum_range_succ, XC3, gammaVal, betaVal, invSqrtR]
  have hY2 : packedY invSqrtR 1 4 1 2 (1 / 100000) XC3 (some fun _ => 1)
      (some fun _ => 0) 2 =
      (Real.sqrt (1 / 4 + 1 / 100000))⁻¹ * 3 +
        -((Real.sqrt (1 / 4 + 1 / 100000))⁻¹ * (7 / 2)) := by
    norm_num [packedY, packedRstd, packedMean, packedVar, rowwiseMoments,
      Finset.sum_range_succ, XC3, gammaVal, betaVal, invSqrtR]
  have hY3 : packedY invSqrtR 1 4 1 2 (1 / 100000) XC3 (some fun _ => 1)
      (some fun _ => 0) 3 =
      (Real.sqrt (1 / 4 + 1 / 100000))⁻¹ * 4 +
        -((Real.sqrt (1 / 4 + 1 / 100000))⁻¹ * (7 / 2)) := by
    norm_num [packedY, packedRstd, packedMean, packedVar, rowwiseMoments,
      Finset.sum_range_succ, XC3, gammaVal, betaVal, invSqrtR]
  have hs1 : Real.sqrt (1 / 4 + 1 / 100000) < 0.50001 :=
    (Real.sqrt_lt' (by norm_num)).mpr (by norm_num)
  have hs2 : (0.5000099 : ℝ) < Real.sqrt (1 / 4 + 1 / 100000) :=
    (Real.lt_sqrt (by norm_num)).mpr (by norm_num)
  have hspos : (0 : ℝ) < Real.sqrt (1 / 4 + 1 / 100000) :=
    lt_trans (by norm_num) hs2
  have hrl : (1.99995 : ℝ) < (Real.sqrt (1 / 4 + 1 / 100000))⁻¹ := by
    have h1 := inv_strictAnti₀ hspos hs1
    have h2 : (1.99995 : ℝ) < (0.50001 : ℝ)⁻¹ := by norm_num
    linarith
  have hrh : (Real.sqrt (1 / 4 + 1 / 100000))⁻¹ < 1.99997 := by
    have h1 := inv_strictAnti₀ (by norm_num : (0 : ℝ) < 0.5000099) hs2
    have h2 : (0.5000099 : ℝ)⁻¹ < 1.99997 := by norm_num
    linarith
  refine ⟨hm0, hm1, hv0, hv1, hr0, hr1, ?_, ?_, ?_, ?_, ?_⟩
  · rw [hr0, abs_lt]
    constructor <;> linarith
  · rw [hY0, abs_lt]
    constructor <;> linarith
  · rw [hY1, abs_lt]
    constructor <;> linarith
  · rw [hY2, abs_lt]
    constructor <;> linarith
  · rw [hY3, abs_lt]
    constructor <;> linarith

end Theorems

end GroupNorm
